import Mathlib

/-!
Shallow embedding of `src/main.py` (a single-endpoint FastAPI computation
service) and proofs of the frozen claims about it.

Conventions of the embedding:
* Python `int` is `Int` (arbitrary precision in both).
* Python lists are `List`, Python `None`-able fields are `Option`.
* Python text handled character-wise (`strip`, `lower`, the regex of
  `first_word`) is modelled as `List Char`; `strip` and `lower` are embedded
  as explicit character functions with Python's (ASCII) semantics.
* `raise HTTPException(status_code, detail)` is `Except.error ⟨status_code, detail⟩`.
* The outbound network call of the AI branch is a parameter (`ask`) of the
  dispatcher; the degraded branch (no `GEMINI_API_KEY`) is modelled exactly.

All embedded definitions live in namespace `Main` (for `main.py`).
-/

namespace Main

/-- Embeds `HTTPException(status_code=…, detail=…)` as raised by `main.py`. -/
structure HTTPExc where
  status_code : Nat
  detail : String
deriving DecidableEq, Repr

/-- From `main.py` lines 37-49, `is_prime`: the `while i * i <= n` loop, counter
`i` starting at 5 and stepping by 6, checking divisibility by `i` and `i+2`.
At every call site `n ≥ 4`, so the loop is embedded over `Nat`. -/
def is_prime_loop (n i : Nat) : Bool :=
  if h : i * i ≤ n then
    if n % i = 0 ∨ n % (i + 2) = 0 then false
    else is_prime_loop n (i + 6)
  else true
termination_by n + 1 - i
decreasing_by
  have hi : i ≤ n := by
    rcases Nat.eq_zero_or_pos i with h0 | h0
    · omega
    · exact le_trans (Nat.le_mul_of_pos_left i h0) h
  omega

/-- From `main.py` lines 37-49, `is_prime(n)`: false for `n ≤ 1`, true for
`2 ≤ n ≤ 3`, false if divisible by 2 or 3, else trial division by the
`6k ± 1` candidates. For `n ≥ 4` all arithmetic is on positive values, so
the loop runs over `n.toNat`. -/
def is_prime (n : Int) : Bool :=
  if n ≤ 1 then false
  else if n ≤ 3 then true
  else if n % 2 = 0 ∨ n % 3 = 0 then false
  else is_prime_loop n.toNat 5

/-- From `main.py` lines 52-60, the `while len(seq) < n` loop of
`fibonacci_series`: append `seq[-1] + seq[-2]` until the length reaches `n`. -/
def fib_loop (n : Int) (seq : List Int) : List Int :=
  if h : (seq.length : Int) < n then
    fib_loop n (seq ++ [seq.getD (seq.length - 1) 0 + seq.getD (seq.length - 2) 0])
  else seq
termination_by n.toNat - seq.length
decreasing_by simp only [List.length_append, List.length_cons, List.length_nil]; omega

/-- From `main.py` lines 52-60, `fibonacci_series(n)`. -/
def fibonacci_series (n : Int) : List Int :=
  if n = 0 then []
  else if n = 1 then [0]
  else fib_loop n [0, 1]

/-- From `main.py` lines 63-64, `gcd(a, b) = math.gcd(a, b)`: Python `math.gcd`
returns the (nonnegative) greatest common divisor of the absolute values,
which is exactly `Int.gcd`. -/
def gcd (a b : Int) : Int := (Int.gcd a b : Int)

/-- From `main.py` lines 67-70, `lcm(a, b)`: 0 if either operand is 0, else
`abs(a*b) // gcd(a, b)` (the operands at every call site are nonnegative,
where Python floor division agrees with `Int` division). -/
def lcm (a b : Int) : Int :=
  if a = 0 ∨ b = 0 then 0
  else ((a * b).natAbs : Int) / gcd a b

/-- From `main.py` lines 73-79, `lcm_of_list(nums)`: 0 for the empty list, else a
left fold of `lcm` over the absolute values, seeded with `abs(nums[0])`. -/
def lcm_of_list (nums : List Int) : Int :=
  match nums with
  | [] => 0
  | x :: xs => xs.foldl (fun (result y : Int) => lcm result (y.natAbs : Int)) (x.natAbs : Int)

/-- From `main.py` lines 82-88, `hcf_of_list(nums)`: 0 for the empty list, else a
left fold of `gcd` over the absolute values, seeded with `abs(nums[0])`. -/
def hcf_of_list (nums : List Int) : Int :=
  match nums with
  | [] => 0
  | x :: xs => xs.foldl (fun (result y : Int) => gcd result (y.natAbs : Int)) (x.natAbs : Int)

/-- The whitespace characters removed by Python's `str.strip()`
(space, tab, newline, carriage return, vertical tab, form feed). -/
def py_whitespace : List Char := [' ', '\t', '\n', '\r', Char.ofNat 11, Char.ofNat 12]

/-- Python `text.strip()`: drop leading and trailing whitespace. -/
def py_strip (s : List Char) : List Char :=
  ((s.dropWhile (fun c => c ∈ py_whitespace)).reverse.dropWhile
    (fun c => c ∈ py_whitespace)).reverse

/-- Python `text.lower()` on the ASCII range (the only one the program
compares against). -/
def py_lower (s : List Char) : List Char :=
  s.map fun c => if 'A' ≤ c ∧ c ≤ 'Z' then Char.ofNat (c.toNat + 32) else c

/-- Character class `[A-Za-z]` of the regex in `main.py` line 92. -/
def is_letter (c : Char) : Bool := ('A' ≤ c ∧ c ≤ 'Z') ∨ ('a' ≤ c ∧ c ≤ 'z')

/-- Character class `[A-Za-z-]` of the regex in `main.py` line 92. -/
def is_word_char (c : Char) : Bool := is_letter c ∨ c = '-'

/-- From `main.py` lines 91-93, `first_word(text)`:
`re.search(r"[A-Za-z]+(?:[A-Za-z-]*)", text)` and the matched text, else `""`.
Python `re.search` with this pattern finds the leftmost match — it starts at
the first letter of `text` — and both quantifiers are greedy with an empty
continuation, so the match is the letter followed by the maximal run of
letters and hyphens. -/
def first_word : List Char → List Char
  | [] => []
  | c :: cs => if is_letter c then c :: cs.takeWhile is_word_char else first_word cs

/-- The fixed known question of `main.py` lines 99 and 129 (already
lower-case and stripped in the source). -/
def known_question : List Char := "what is the capital city of maharashtra?".toList

/-- From `main.py` lines 96-101: the branch of `ask_ai_single_word(question)`
taken when `GEMINI_API_KEY` is unset (degraded mode): answer `"Mumbai"` when
the stripped, lower-cased question is the known question, else raise
`HTTPException(500, "AI provider key not configured")`. -/
def ask_ai_single_word_degraded (question : List Char) : Except HTTPExc (List Char) :=
  if py_lower (py_strip question) = known_question then .ok "Mumbai".toList
  else .error ⟨500, "AI provider key not configured"⟩

/-- From `main.py` lines 29-34, `BFHLRequest`: five optional fields. -/
structure BFHLRequest where
  fibonacci : Option Int := none
  prime : Option (List Int) := none
  lcm : Option (List Int) := none
  hcf : Option (List Int) := none
  AI : Option (List Char) := none
deriving DecidableEq, Repr

/-- The `data` value a successful dispatch carries: a list of integers
(`fibonacci`, `prime`), a single integer (`lcm`, `hcf`), or text (`AI`). -/
inductive Data where
  | ints : List Int → Data
  | int : Int → Data
  | str : List Char → Data
deriving DecidableEq, Repr

/-- The presence test `getattr(req, k) is not None` of `main.py` lines 196-199. -/
def field_is_present (req : BFHLRequest) (k : String) : Bool :=
  if k = "fibonacci" then req.fibonacci.isSome
  else if k = "prime" then req.prime.isSome
  else if k = "lcm" then req.lcm.isSome
  else if k = "hcf" then req.hcf.isSome
  else if k = "AI" then req.AI.isSome
  else false

/-- From `main.py` lines 196-199, `provided_keys`: the functional keys whose
field is not `None`, in the fixed order. -/
def provided_keys (req : BFHLRequest) : List String :=
  ["fibonacci", "prime", "lcm", "hcf", "AI"].filter (fun k => field_is_present req k)

/-- From `main.py` lines 194-235, the `bfhl` endpoint (Request Validator &
Dispatcher). `ask` abstracts `ask_ai_single_word` (line 227), whose body
depends on the process configuration `GEMINI_API_KEY` and, in live mode, on
the network; the degraded instantiation is `ask_ai_single_word_degraded`.
The `isinstance` checks of lines 206 and 213 are guaranteed by the typed
request model (pydantic validates field types before `bfhl` runs); their
`raise` branches are kept for the impossible `none` cases. -/
def bfhl (ask : List Char → Except HTTPExc (List Char)) (req : BFHLRequest) :
    Except HTTPExc Data :=
  if (provided_keys req).length ≠ 1 then
    .error ⟨400, "Provide exactly one functional key"⟩
  else
    let key := (provided_keys req).headD ""
    if key = "fibonacci" then
      match req.fibonacci with
      | none => .error ⟨400, "fibonacci must be integer"⟩
      | some n =>
        if n < 0 ∨ 1000 < n then .error ⟨400, "fibonacci out of allowed range"⟩
        else .ok (.ints (fibonacci_series n))
    else if key = "prime" ∨ key = "lcm" ∨ key = "hcf" then
      match (if key = "prime" then req.prime else if key = "lcm" then req.lcm else req.hcf) with
      | none => .error ⟨400, key ++ " must be integer array"⟩
      | some arr =>
        if arr.length = 0 ∨ 1000 < arr.length then
          .error ⟨400, key ++ " array size invalid"⟩
        else if key = "prime" then .ok (.ints (arr.filter (fun x => is_prime x)))
        else if key = "lcm" then .ok (.int (lcm_of_list arr))
        else .ok (.int (hcf_of_list arr))
    else if key = "AI" then
      match req.AI with
      | none => .error ⟨400, "AI must be non-empty question"⟩
      | some q =>
        if (py_strip q).length = 0 ∨ 300 < q.length then
          .error ⟨400, "AI must be non-empty question"⟩
        else
          match ask (py_strip q) with
          | .ok w => .ok (.str w)
          | .error e => .error e
    else .error ⟨400, "Unsupported functional key"⟩

/-- The `bfhl` endpoint in degraded mode (no `GEMINI_API_KEY`). -/
def bfhl_degraded (req : BFHLRequest) : Except HTTPExc Data :=
  bfhl ask_ai_single_word_degraded req

/-- The `error` object of the error envelope (`main.py` lines 144-148). -/
structure ErrorBody where
  code : Nat
  message : String
  path : String
deriving DecidableEq, Repr

/-- The uniform response envelope (`main.py` lines 139-150 and 231-235). -/
structure ResponseEnvelope where
  is_success : Bool
  official_email : String
  data : Option Data
  error : Option ErrorBody
deriving DecidableEq, Repr

/-- The Envelope Builder: a success result becomes the body of `main.py`
lines 231-235 (`is_success: True`, the configured email, the data); a raised
`HTTPException` becomes the body built by `http_exception_handler`,
`main.py` lines 137-150 (`is_success: False`, the configured email, and
`{code, message, path}`). `official_email` is the process-wide
`OFFICIAL_EMAIL` configuration, `path` the request path. -/
def build_envelope (official_email : String) (path : String)
    (r : Except HTTPExc Data) : ResponseEnvelope :=
  match r with
  | .ok d =>
    { is_success := true, official_email := official_email, data := some d, error := none }
  | .error e =>
    { is_success := false, official_email := official_email, data := none,
      error := some ⟨e.status_code, e.detail, path⟩ }

/-- The reference trial-division primality predicate: `n` is at least 2 and
no `d` with `2 ≤ d < n` divides it. -/
def trial_division_prime (n : Int) : Bool :=
  if n < 2 then false
  else (List.range' 2 (n.toNat - 2)).all (fun d => n.toNat % d != 0)

/-- If the `6k ± 1` loop of `is_prime` reports no divisor from counter `i`
on, then no `d ≥ i` with `d * d ≤ n` that is coprime to 6 divides `n`. -/
theorem is_prime_loop_sound (n : Nat) :
    ∀ i, i % 6 = 5 → is_prime_loop n i = true →
    ∀ d, i ≤ d → d * d ≤ n → d % 2 ≠ 0 → d % 3 ≠ 0 → ¬ d ∣ n := by
  intro i
  induction i using is_prime_loop.induct with
  | n => exact n
  | case1 i h hcond =>
    intro _ hloop
    rw [is_prime_loop] at hloop
    simp [h, hcond] at hloop
  | case2 i h hcond ih =>
    intro hi hloop d hid hdd h2 h3 hdvd
    rw [is_prime_loop, dif_pos h, if_neg hcond] at hloop
    push_neg at hcond
    have hd : d = i ∨ d = i + 2 ∨ i + 6 ≤ d := by omega
    rcases hd with rfl | rfl | hd
    · exact hcond.1 (Nat.mod_eq_zero_of_dvd hdvd)
    · exact hcond.2 (Nat.mod_eq_zero_of_dvd hdvd)
    · exact ih (by omega) hloop d hd hdd h2 h3 hdvd
  | case3 i h =>
    intro _ _ d hid hdd _ _ _
    exact h (le_trans (Nat.mul_le_mul hid hid) hdd)

/-- On a prime `n` the `6k ± 1` loop never finds a divisor. -/
theorem is_prime_loop_complete (n : Nat) :
    ∀ i, Nat.Prime n → 2 ≤ i → is_prime_loop n i = true := by
  intro i
  induction i using is_prime_loop.induct with
  | n => exact n
  | case1 i h hcond =>
    intro hp h2
    exfalso
    rcases hcond with hc | hc
    · rcases hp.eq_one_or_self_of_dvd i (Nat.dvd_of_mod_eq_zero hc) with h1 | h1
      · omega
      · have hmul : 2 * n ≤ n * n := Nat.mul_le_mul_right n hp.two_le
        have hnn : n * n ≤ n := by rw [← h1] at h ⊢; exact h
        have := hp.two_le
        omega
    · rcases hp.eq_one_or_self_of_dvd (i + 2) (Nat.dvd_of_mod_eq_zero hc) with h1 | h1
      · omega
      · have hi2 : i = 2 := by
          by_contra hne
          have h3i : 3 ≤ i := by omega
          have : 3 * i ≤ i * i := Nat.mul_le_mul_right i h3i
          omega
        have hn4 : n = 4 := by omega
        rw [hn4] at hp
        norm_num at hp
  | case2 i h hcond ih =>
    intro hp h2
    rw [is_prime_loop, dif_pos h, if_neg hcond]
    exact ih hp (by omega)
  | case3 i h =>
    intro _ _
    rw [is_prime_loop]
    simp [h]

/-- Correctness of `is_prime`: it is true exactly on the integers whose value is a prime
natural number. -/
theorem is_prime_iff (n : Int) :
    is_prime n = true ↔ 2 ≤ n ∧ Nat.Prime n.toNat := by
  unfold is_prime
  split_ifs with h1 h2 h3
  · simp
    intro h
    omega
  · simp only [true_iff]
    refine ⟨by omega, ?_⟩
    have : n = 2 ∨ n = 3 := by omega
    rcases this with rfl | rfl
    · exact Nat.prime_two
    · exact Nat.prime_three
  · simp only [false_iff, not_and]
    intro hn2 hp
    have hm : n.toNat % 2 = 0 ∨ n.toNat % 3 = 0 := by omega
    rcases hm with hm | hm
    · rcases hp.eq_one_or_self_of_dvd 2 (Nat.dvd_of_mod_eq_zero hm) with h | h <;> omega
    · rcases hp.eq_one_or_self_of_dvd 3 (Nat.dvd_of_mod_eq_zero hm) with h | h <;> omega
  · have hn4 : 4 ≤ n := by omega
    simp only [iff_iff_implies_and_implies]
    constructor
    · intro hloop
      refine ⟨by omega, ?_⟩
      by_contra hnp
      have hne1 : n.toNat ≠ 1 := by omega
      have hpp := Nat.minFac_prime hne1
      have hpd := Nat.minFac_dvd n.toNat
      have hpsq := Nat.minFac_sq_le_self (by omega) hnp
      rw [pow_two] at hpsq
      set p := n.toNat.minFac with hp
      have hp2 : p % 2 ≠ 0 := by
        intro hmod
        rcases hpp.eq_one_or_self_of_dvd 2 (Nat.dvd_of_mod_eq_zero hmod) with h | h
        · omega
        · have : (2 : Nat) ∣ n.toNat := h ▸ hpd
          have := Nat.mod_eq_zero_of_dvd this
          omega
      have hp3 : p % 3 ≠ 0 := by
        intro hmod
        rcases hpp.eq_one_or_self_of_dvd 3 (Nat.dvd_of_mod_eq_zero hmod) with h | h
        · omega
        · have : (3 : Nat) ∣ n.toNat := h ▸ hpd
          have := Nat.mod_eq_zero_of_dvd this
          omega
      have hp5 : 5 ≤ p := by
        have := hpp.two_le
        omega
      exact is_prime_loop_sound n.toNat 5 (by norm_num) hloop p hp5 hpsq hp2 hp3 hpd
    · intro ⟨_, hp⟩
      exact is_prime_loop_complete n.toNat 5 hp (by norm_num)

/-- The reference predicate is also true exactly on prime values. -/
theorem trial_division_prime_iff (n : Int) :
    trial_division_prime n = true ↔ 2 ≤ n ∧ Nat.Prime n.toNat := by
  unfold trial_division_prime
  split_ifs with h
  · simp
    intro
    omega
  · rw [List.all_eq_true]
    constructor
    · intro hall
      refine ⟨by omega, ?_⟩
      rw [Nat.prime_def_lt']
      refine ⟨by omega, fun d h2d hdm hdvd => ?_⟩
      have hmem : d ∈ List.range' 2 (n.toNat - 2) := by
        rw [List.mem_range']
        exact ⟨d - 2, by omega, by omega⟩
      have hd := hall d hmem
      simp only [bne_iff_ne, ne_eq, decide_eq_true_eq] at hd
      exact hd (Nat.mod_eq_zero_of_dvd hdvd)
    · rintro ⟨-, hp⟩ d hmem
      rw [List.mem_range'] at hmem
      obtain ⟨i, hi, rfl⟩ := hmem
      simp only [bne_iff_ne, ne_eq, decide_eq_true_eq]
      intro hmod
      rcases hp.eq_one_or_self_of_dvd _ (Nat.dvd_of_mod_eq_zero hmod) with h | h <;> omega

/-- Agreement: `is_prime` and the reference trial division agree everywhere. -/
theorem is_prime_eq_trial_division (n : Int) :
    is_prime n = trial_division_prime n := by
  rw [Bool.eq_iff_iff, is_prime_iff, trial_division_prime_iff]

/-- Spec-side predicate for the Fibonacci claim: every term after the first
two equals the sum of the two preceding terms. -/
def fib_chain (l : List Int) : Prop :=
  ∀ k, k + 2 < l.length → l.getD (k + 2) 0 = l.getD k 0 + l.getD (k + 1) 0

theorem getD_append_left (l l' : List Int) (k : Nat) (h : k < l.length) :
    (l ++ l').getD k 0 = l.getD k 0 := by
  simp [List.getD_eq_getElem?_getD, List.getElem?_append_left h]

theorem getD_append_self (l : List Int) (x : Int) :
    (l ++ [x]).getD l.length 0 = x := by
  simp [List.getD_eq_getElem?_getD, List.getElem?_append_right (le_refl l.length)]

/-- The loop of `fibonacci_series` only appends: the initial `seq` stays the
prefix of the result. -/
theorem fib_loop_take (n : Int) :
    ∀ seq, (fib_loop n seq).take seq.length = seq := by
  intro seq
  induction seq using fib_loop.induct with
  | n => exact n
  | case1 seq h ih =>
    rw [fib_loop, dif_pos h]
    have hcong := congrArg (List.take seq.length) ih
    rwa [List.take_take, Nat.min_eq_left (by simp), List.take_left] at hcong
  | case2 seq h =>
    rw [fib_loop, dif_neg h]
    exact List.take_length seq

/-- The loop of `fibonacci_series` stops at length `n` (and does not shrink
a sequence already long enough). -/
theorem fib_loop_length (n : Int) :
    ∀ seq, (fib_loop n seq).length = max seq.length n.toNat := by
  intro seq
  induction seq using fib_loop.induct with
  | n => exact n
  | case1 seq h ih =>
    rw [fib_loop, dif_pos h, ih]
    simp only [List.length_append, List.length_cons, List.length_nil]
    omega
  | case2 seq h =>
    rw [fib_loop, dif_neg h]
    omega

/-- Appending `seq[-1] + seq[-2]` preserves the Fibonacci recurrence. -/
theorem fib_chain_append (seq : List Int) (h2 : 2 ≤ seq.length) (hc : fib_chain seq) :
    fib_chain
      (seq ++ [seq.getD (seq.length - 1) 0 + seq.getD (seq.length - 2) 0]) := by
  intro k hk
  simp only [List.length_append, List.length_cons, List.length_nil] at hk
  rcases Nat.lt_or_ge (k + 2) seq.length with hlt | hge
  · rw [getD_append_left _ _ _ hlt, getD_append_left _ _ _ (by omega),
      getD_append_left _ _ _ (by omega)]
    exact hc k hlt
  · have hk2 : k + 2 = seq.length := by omega
    rw [hk2, getD_append_self, getD_append_left _ _ _ (by omega),
      getD_append_left _ _ _ (by omega)]
    have e1 : seq.length - 1 = k + 1 := by omega
    have e2 : seq.length - 2 = k := by omega
    rw [e1, e2]
    ring

/-- The loop of `fibonacci_series` preserves the Fibonacci recurrence. -/
theorem fib_loop_chain (n : Int) :
    ∀ seq, 2 ≤ seq.length → fib_chain seq → fib_chain (fib_loop n seq) := by
  intro seq
  induction seq using fib_loop.induct with
  | n => exact n
  | case1 seq h ih =>
    intro hlen hc
    rw [fib_loop, dif_pos h]
    refine ih ?_ (fib_chain_append seq hlen hc)
    simp only [List.length_append, List.length_cons, List.length_nil]
    omega
  | case2 seq h =>
    intro _ hc
    rw [fib_loop, dif_neg h]
    exact hc

/-- The source's `lcm` computes `Int.lcm`: when an operand is 0 both sides
are 0, else `abs(a*b) // gcd(a, b)` is the usual formula for the least
common multiple of the absolute values. -/
theorem lcm_eq_intLcm (a b : Int) : lcm a b = (Int.lcm a b : Int) := by
  unfold lcm
  split_ifs with h
  · rcases h with rfl | rfl <;> simp [Int.lcm]
  · push_neg at h
    rw [gcd, ← Int.ofNat_ediv]
    congr 1
    rw [Int.natAbs_mul]
    rfl

theorem gcd_nonneg (a b : Int) : 0 ≤ gcd a b := Int.ofNat_nonneg _

theorem lcm_nonneg (a b : Int) : 0 ≤ lcm a b := by
  rw [lcm_eq_intLcm]
  exact Int.ofNat_nonneg _

/-- The left fold of `lcm_of_list` produces a common multiple of the seed
and of every list element's absolute value. -/
theorem lcm_fold_dvd (xs : List Int) : ∀ a : Int,
    a ∣ xs.foldl (fun (result y : Int) => lcm result (y.natAbs : Int)) a ∧
    ∀ x ∈ xs, (x.natAbs : Int) ∣
      xs.foldl (fun (result y : Int) => lcm result (y.natAbs : Int)) a := by
  induction xs with
  | nil => exact fun a => ⟨dvd_refl a, by simp⟩
  | cons x xs ih =>
    intro a
    simp only [List.foldl_cons]
    obtain ⟨hseed, hmem⟩ := ih (lcm a (x.natAbs : Int))
    have hax : a ∣ lcm a (x.natAbs : Int) := by
      rw [lcm_eq_intLcm]; exact Int.dvd_lcm_left
    have hxx : (x.natAbs : Int) ∣ lcm a (x.natAbs : Int) := by
      rw [lcm_eq_intLcm]; exact Int.dvd_lcm_right
    refine ⟨dvd_trans hax hseed, ?_⟩
    intro y hy
    rcases List.mem_cons.mp hy with rfl | hy
    · exact dvd_trans hxx hseed
    · exact hmem y hy

/-- The left fold of `hcf_of_list` produces a common divisor of the seed and
of every list element. -/
theorem hcf_fold_dvd (xs : List Int) : ∀ a : Int,
    xs.foldl (fun (result y : Int) => gcd result (y.natAbs : Int)) a ∣ a ∧
    ∀ x ∈ xs,
      xs.foldl (fun (result y : Int) => gcd result (y.natAbs : Int)) a ∣ x := by
  induction xs with
  | nil => exact fun a => ⟨dvd_refl a, by simp⟩
  | cons x xs ih =>
    intro a
    simp only [List.foldl_cons]
    obtain ⟨hseed, hmem⟩ := ih (gcd a (x.natAbs : Int))
    have hax : gcd a (x.natAbs : Int) ∣ a := Int.gcd_dvd_left
    have hxx : gcd a (x.natAbs : Int) ∣ x :=
      Int.dvd_natAbs.mp Int.gcd_dvd_right
    refine ⟨dvd_trans hseed hax, ?_⟩
    intro y hy
    rcases List.mem_cons.mp hy with rfl | hy
    · exact dvd_trans hseed hxx
    · exact hmem y hy

/-- The lcm fold keeps the accumulator nonnegative. -/
theorem lcm_fold_nonneg (xs : List Int) : ∀ a : Int, 0 ≤ a →
    0 ≤ xs.foldl (fun (result y : Int) => lcm result (y.natAbs : Int)) a := by
  induction xs with
  | nil => exact fun a ha => ha
  | cons x xs ih =>
    intro a _
    simp only [List.foldl_cons]
    exact ih _ (lcm_nonneg a (x.natAbs : Int))

/-- The gcd fold keeps the accumulator nonnegative. -/
theorem hcf_fold_nonneg (xs : List Int) : ∀ a : Int, 0 ≤ a →
    0 ≤ xs.foldl (fun (result y : Int) => gcd result (y.natAbs : Int)) a := by
  induction xs with
  | nil => exact fun a ha => ha
  | cons x xs ih =>
    intro a _
    simp only [List.foldl_cons]
    exact ih _ (gcd_nonneg a (x.natAbs : Int))

/-- Emptiness: `first_word` returns the empty string exactly when the text has no
letter. -/
theorem first_word_empty_iff (l : List Char) :
    first_word l = [] ↔ ∀ c ∈ l, is_letter c = false := by
  induction l with
  | nil => simp [first_word]
  | cons c cs ih =>
    by_cases hc : is_letter c
    · simp only [first_word, if_pos hc]
      simp only [List.mem_cons]
      constructor
      · intro h
        exact absurd h (by simp)
      · intro h
        exact absurd hc (by simp [h c (Or.inl rfl)])
    · simp only [first_word, if_neg hc, ih, List.mem_cons]
      constructor
      · intro h x hx
        rcases hx with rfl | hx
        · simpa using hc
        · exact h x hx
      · intro h x hx
        exact h x (Or.inr hx)

/-- Shape: `first_word` on a text with a letter returns the first maximal run
matching `[A-Za-z]+(?:[A-Za-z-]*)`: the text splits as `pre ++ run ++ suf`
where `pre` has no letter (no earlier start), the run starts with a letter
and consists of letters and hyphens, and `suf` does not start with a letter
or hyphen (maximality). -/
theorem first_word_spec (l : List Char) (hne : first_word l ≠ []) :
    ∃ pre suf, l = pre ++ first_word l ++ suf ∧
      (∀ c ∈ pre, is_letter c = false) ∧
      (∃ c cs, first_word l = c :: cs ∧ is_letter c = true) ∧
      (∀ c ∈ first_word l, is_word_char c = true) ∧
      (suf = [] ∨ ∃ d ds, suf = d :: ds ∧ is_word_char d = false) := by
  induction l with
  | nil => simp [first_word] at hne
  | cons c cs ih =>
    by_cases hc : is_letter c
    · have hw : first_word (c :: cs) = c :: cs.takeWhile is_word_char := by
        simp [first_word, hc]
      refine ⟨[], cs.dropWhile is_word_char, ?_, by simp, ?_, ?_, ?_⟩
      · rw [hw]
        simp [List.takeWhile_append_dropWhile]
      · exact ⟨c, cs.takeWhile is_word_char, hw, hc⟩
      · intro x hx
        rw [hw] at hx
        rcases List.mem_cons.mp hx with rfl | hx
        · simp [is_word_char, hc]
        · exact List.mem_takeWhile_imp hx
      · rcases hdw : cs.dropWhile is_word_char with _ | ⟨d, ds⟩
        · exact Or.inl rfl
        · refine Or.inr ⟨d, ds, rfl, ?_⟩
          have hh := List.head?_dropWhile_not is_word_char cs
          rw [hdw] at hh
          simpa using hh
    · have hw : first_word (c :: cs) = first_word cs := by
        simp [first_word, hc]
      rw [hw] at hne
      obtain ⟨pre, suf, h1, h2, h3, h4, h5⟩ := ih hne
      refine ⟨c :: pre, suf, ?_, ?_, ?_, ?_, h5⟩
      · rw [hw]
        simp only [List.cons_append, List.append_assoc]
        rw [← List.append_assoc, ← h1]
      · intro x hx
        rcases List.mem_cons.mp hx with rfl | hx
        · simpa using hc
        · exact h2 x hx
      · rw [hw]; exact h3
      · rw [hw]; exact h4

/-- Evaluation of `bfhl` on a request whose only present key is `fibonacci`. -/
theorem bfhl_fib (ask : List Char → Except HTTPExc (List Char)) (n : Int) :
    bfhl ask { fibonacci := some n } =
      if n < 0 ∨ 1000 < n then .error ⟨400, "fibonacci out of allowed range"⟩
      else .ok (.ints (fibonacci_series n)) := by
  simp [bfhl, provided_keys, field_is_present]

/-- Evaluation of `bfhl` on a request whose only present key is `prime`. -/
theorem bfhl_prime (ask : List Char → Except HTTPExc (List Char)) (arr : List Int) :
    bfhl ask { prime := some arr } =
      if arr.length = 0 ∨ 1000 < arr.length then .error ⟨400, "prime array size invalid"⟩
      else .ok (.ints (arr.filter (fun x => is_prime x))) := by
  simp [bfhl, provided_keys, field_is_present]

/-- Evaluation of `bfhl` on a request whose only present key is `lcm`. -/
theorem bfhl_lcm (ask : List Char → Except HTTPExc (List Char)) (arr : List Int) :
    bfhl ask { lcm := some arr } =
      if arr.length = 0 ∨ 1000 < arr.length then .error ⟨400, "lcm array size invalid"⟩
      else .ok (.int (lcm_of_list arr)) := by
  simp [bfhl, provided_keys, field_is_present]

/-- Evaluation of `bfhl` on a request whose only present key is `hcf`. -/
theorem bfhl_hcf (ask : List Char → Except HTTPExc (List Char)) (arr : List Int) :
    bfhl ask { hcf := some arr } =
      if arr.length = 0 ∨ 1000 < arr.length then .error ⟨400, "hcf array size invalid"⟩
      else .ok (.int (hcf_of_list arr)) := by
  simp [bfhl, provided_keys, field_is_present]

/-- Evaluation of `bfhl` on a request whose only present key is `AI`. -/
theorem bfhl_AI (ask : List Char → Except HTTPExc (List Char)) (q : List Char) :
    bfhl ask { AI := some q } =
      if (py_strip q).length = 0 ∨ 300 < q.length then
        .error ⟨400, "AI must be non-empty question"⟩
      else
        match ask (py_strip q) with
        | .ok w => .ok (.str w)
        | .error e => .error e := by
  simp [bfhl, provided_keys, field_is_present]

/-- No value returned by `ask_ai_single_word` in degraded mode is the
"exactly one functional key" error (it raises only status 500). -/
theorem ask_degraded_not_one_key_error (q : List Char) :
    ask_ai_single_word_degraded q ≠ .error ⟨400, "Provide exactly one functional key"⟩ := by
  unfold ask_ai_single_word_degraded
  split_ifs <;> simp

end Main

namespace Claims

open Main

/-- C1: for every request, `bfhl` fails with the 400 error "Provide exactly
one functional key" if and only if the number of present fields among
{fibonacci, prime, lcm, hcf, AI} is not exactly 1, regardless of the values
of the other fields. (`ask` is the AI resolver, which in either mode never
raises this message — degraded mode raises only 500, live mode only 502.) -/
theorem C1_exactly_one_functional_key
    (ask : List Char → Except HTTPExc (List Char))
    (hask : ∀ q, ask q ≠ .error ⟨400, "Provide exactly one functional key"⟩)
    (req : BFHLRequest) :
    bfhl ask req = .error ⟨400, "Provide exactly one functional key"⟩ ↔
      (provided_keys req).length ≠ 1 := by
  constructor
  · intro heq
    by_contra hlen
    obtain ⟨f, p, l, h, a⟩ := req
    rcases f with _ | n <;> rcases p with _ | parr <;> rcases l with _ | larr <;>
      rcases h with _ | harr <;> rcases a with _ | q <;>
      first
      | (exfalso; simp [provided_keys, field_is_present] at hlen)
      | skip
    · -- only AI present
      rw [bfhl_AI] at heq
      split_ifs at heq
      · simp at heq
      · rcases hq : ask (py_strip q) with e | w <;> rw [hq] at heq
        · simp only [Except.error.injEq] at heq
          rw [heq] at hq
          exact hask (py_strip q) hq
        · simp at heq
    · -- only hcf present
      rw [bfhl_hcf] at heq
      split_ifs at heq <;> simp at heq
    · -- only lcm present
      rw [bfhl_lcm] at heq
      split_ifs at heq <;> simp at heq
    · -- only prime present
      rw [bfhl_prime] at heq
      split_ifs at heq <;> simp at heq
    · -- only fibonacci present
      rw [bfhl_fib] at heq
      split_ifs at heq <;> simp at heq
  · intro hlen
    rw [bfhl, if_pos hlen]

/-- Witness for C1 at the degraded resolver and the empty request. -/
theorem C1_exactly_one_functional_key_witness :
    bfhl ask_ai_single_word_degraded {} =
      .error ⟨400, "Provide exactly one functional key"⟩ ↔
    (provided_keys {}).length ≠ 1 :=
  C1_exactly_one_functional_key ask_ai_single_word_degraded
    ask_degraded_not_one_key_error {}

/-- C2: for every integer `n` in [0, 1000], `fibonacci_series n` has length
exactly `n`, starts `0, 1` when `n ≥ 2`, satisfies the Fibonacci recurrence
after the first two terms, and in particular is `[]` for `n = 0` and `[0]`
for `n = 1`. -/
theorem C2_fibonacci_series_spec (n : Int) (h0 : 0 ≤ n) (h1000 : n ≤ 1000) :
    ((fibonacci_series n).length : Int) = n ∧
    (2 ≤ n → (fibonacci_series n).take 2 = [0, 1]) ∧
    fib_chain (fibonacci_series n) ∧
    fibonacci_series 0 = [] ∧ fibonacci_series 1 = [0] := by
  refine ⟨?_, ?_, ?_, rfl, rfl⟩
  · unfold fibonacci_series
    split_ifs with e0 e1
    · simp [e0]
    · simp [e1]
    · have hlen := fib_loop_length n [0, 1]
      rw [hlen]
      simp only [List.length_cons, List.length_nil]
      omega
  · intro h2
    unfold fibonacci_series
    rw [if_neg (by omega), if_neg (by omega)]
    simpa using fib_loop_take n [0, 1]
  · unfold fibonacci_series
    split_ifs with e0 e1
    · intro k hk
      simp at hk
    · intro k hk
      simp at hk
    · refine fib_loop_chain n [0, 1] (by simp) ?_
      intro k hk
      simp at hk

/-- Witness for C2 at `n = 5`. -/
theorem C2_fibonacci_series_spec_witness :
    ((fibonacci_series 5).length : Int) = 5 ∧
    (2 ≤ (5 : Int) → (fibonacci_series 5).take 2 = [0, 1]) ∧
    fib_chain (fibonacci_series 5) ∧
    fibonacci_series 0 = [] ∧ fibonacci_series 1 = [0] :=
  C2_fibonacci_series_spec 5 (by norm_num) (by norm_num)

/-- C3: for every non-empty integer list, `hcf_of_list` divides every
element evenly, and `lcm_of_list` is evenly divided by the absolute value of
every element (lists with zero or negative elements included). -/
theorem C3_hcf_divides_and_lcm_divided (nums : List Int) (hne : nums ≠ []) :
    (∀ x ∈ nums, hcf_of_list nums ∣ x) ∧
    (∀ x ∈ nums, (x.natAbs : Int) ∣ lcm_of_list nums) := by
  rcases nums with _ | ⟨x, xs⟩
  · exact absurd rfl hne
  · constructor
    · intro y hy
      obtain ⟨hseed, hmem⟩ := hcf_fold_dvd xs (x.natAbs : Int)
      rcases List.mem_cons.mp hy with rfl | hy
      · exact Int.natAbs_dvd.mp (by simpa [hcf_of_list] using hseed)
      · simpa [hcf_of_list] using hmem y hy
    · intro y hy
      obtain ⟨hseed, hmem⟩ := lcm_fold_dvd xs (x.natAbs : Int)
      rcases List.mem_cons.mp hy with rfl | hy
      · simpa [lcm_of_list] using hseed
      · simpa [lcm_of_list] using hmem y hy

/-- Witness for C3 at `[-4, 0, 6]`. -/
theorem C3_hcf_divides_and_lcm_divided_witness :
    (∀ x ∈ ([-4, 0, 6] : List Int), hcf_of_list [-4, 0, 6] ∣ x) ∧
    (∀ x ∈ ([-4, 0, 6] : List Int), (x.natAbs : Int) ∣ lcm_of_list [-4, 0, 6]) :=
  C3_hcf_divides_and_lcm_divided [-4, 0, 6] (by simp)

/-- C4: in degraded mode `ask_ai_single_word` answers `"Mumbai"` exactly
when the stripped, lower-cased question is the fixed known question, fails
with the 500 "AI provider key not configured" error on every other
question, and hence the dispatcher answers
`{AI: "What is the capital city of Maharashtra?"}` with data `"Mumbai"`. -/
theorem C4_degraded_mode_ai (q : List Char) :
    (ask_ai_single_word_degraded q = .ok "Mumbai".toList ↔
      py_lower (py_strip q) = known_question) ∧
    (py_lower (py_strip q) ≠ known_question →
      ask_ai_single_word_degraded q =
        .error ⟨500, "AI provider key not configured"⟩) ∧
    bfhl_degraded { AI := some "What is the capital city of Maharashtra?".toList }
      = .ok (.str "Mumbai".toList) := by
  refine ⟨?_, ?_, rfl⟩
  · unfold ask_ai_single_word_degraded
    split_ifs with h <;> simp [h]
  · intro h
    unfold ask_ai_single_word_degraded
    rw [if_neg h]

/-- C5: with exactly the `fibonacci` key present, dispatch succeeds iff the
value is in [0, 1000] and otherwise fails with the 400 range error; with
exactly one of `prime`/`lcm`/`hcf` present, dispatch succeeds iff the list
length is in [1, 1000] and otherwise fails with the 400 size error; in
particular `{fibonacci: 1001}` and `{prime: []}` fail with 400. -/
theorem C5_per_key_validation (ask : List Char → Except HTTPExc (List Char)) :
    (∀ n : Int,
      ((∃ d, bfhl ask { fibonacci := some n } = .ok d) ↔ 0 ≤ n ∧ n ≤ 1000) ∧
      (¬(0 ≤ n ∧ n ≤ 1000) → bfhl ask { fibonacci := some n } =
        .error ⟨400, "fibonacci out of allowed range"⟩)) ∧
    (∀ arr : List Int,
      ((∃ d, bfhl ask { prime := some arr } = .ok d) ↔
        1 ≤ arr.length ∧ arr.length ≤ 1000) ∧
      (¬(1 ≤ arr.length ∧ arr.length ≤ 1000) → bfhl ask { prime := some arr } =
        .error ⟨400, "prime array size invalid"⟩)) ∧
    (∀ arr : List Int,
      ((∃ d, bfhl ask { lcm := some arr } = .ok d) ↔
        1 ≤ arr.length ∧ arr.length ≤ 1000) ∧
      (¬(1 ≤ arr.length ∧ arr.length ≤ 1000) → bfhl ask { lcm := some arr } =
        .error ⟨400, "lcm array size invalid"⟩)) ∧
    (∀ arr : List Int,
      ((∃ d, bfhl ask { hcf := some arr } = .ok d) ↔
        1 ≤ arr.length ∧ arr.length ≤ 1000) ∧
      (¬(1 ≤ arr.length ∧ arr.length ≤ 1000) → bfhl ask { hcf := some arr } =
        .error ⟨400, "hcf array size invalid"⟩)) ∧
    bfhl ask { fibonacci := some 1001 } =
      .error ⟨400, "fibonacci out of allowed range"⟩ ∧
    bfhl ask { prime := some [] } = .error ⟨400, "prime array size invalid"⟩ := by
  refine ⟨?_, ?_, ?_, ?_, ?_, ?_⟩
  · intro n
    rw [bfhl_fib]
    constructor
    · split_ifs with h
      · exact iff_of_false (by rintro ⟨d, hd⟩; simp at hd) (by omega)
      · exact iff_of_true ⟨_, rfl⟩ (by omega)
    · intro hn
      rw [if_pos (by omega)]
  · intro arr
    rw [bfhl_prime]
    constructor
    · split_ifs with h
      · exact iff_of_false (by rintro ⟨d, hd⟩; simp at hd) (by omega)
      · exact iff_of_true ⟨_, rfl⟩ (by omega)
    · intro hn
      rw [if_pos (by omega)]
  · intro arr
    rw [bfhl_lcm]
    constructor
    · split_ifs with h
      · exact iff_of_false (by rintro ⟨d, hd⟩; simp at hd) (by omega)
      · exact iff_of_true ⟨_, rfl⟩ (by omega)
    · intro hn
      rw [if_pos (by omega)]
  · intro arr
    rw [bfhl_hcf]
    constructor
    · split_ifs with h
      · exact iff_of_false (by rintro ⟨d, hd⟩; simp at hd) (by omega)
      · exact iff_of_true ⟨_, rfl⟩ (by omega)
    · intro hn
      rw [if_pos (by omega)]
  · rw [bfhl_fib, if_pos (by norm_num)]
  · rw [bfhl_prime, if_pos (by norm_num)]

/-- C6: `is_prime` agrees with the reference trial-division predicate on
every integer in [-1000, 10000] (in fact the proof shows agreement
everywhere), with the particular values `is_prime 2 = true`,
`is_prime 1 = false`, `is_prime 0 = false`, `is_prime (-7) = false`, and
`is_prime n = false` for every `n ≤ 1`. -/
theorem C6_is_prime_agrees_with_trial_division :
    (∀ n : Int, -1000 ≤ n → n ≤ 10000 → is_prime n = trial_division_prime n) ∧
    is_prime 2 = true ∧ is_prime 1 = false ∧ is_prime 0 = false ∧
    is_prime (-7) = false ∧
    (∀ n : Int, n ≤ 1 → is_prime n = false) := by
  refine ⟨fun n _ _ => is_prime_eq_trial_division n, ?_, ?_, ?_, ?_, ?_⟩
  · simp [is_prime]
  · simp [is_prime]
  · simp [is_prime]
  · simp [is_prime]
  · intro n hn
    unfold is_prime
    rw [if_pos hn]

/-- Witness for C6's universally quantified parts at `n = 7` and `n = 0`. -/
theorem C6_is_prime_agrees_with_trial_division_witness :
    is_prime 7 = trial_division_prime 7 ∧ is_prime 0 = false :=
  ⟨C6_is_prime_agrees_with_trial_division.1 7 (by norm_num) (by norm_num),
   C6_is_prime_agrees_with_trial_division.2.2.2.2.2 0 (by norm_num)⟩

/-- C7: with exactly the `prime` key present and a list of valid size,
dispatch succeeds with the subsequence of prime elements in their original
order (`List.filter` keeps order and yields a sublist); in particular
`{prime: [2,3,4,5,9,11]}` succeeds with data `[2,3,5,11]`. -/
theorem C7_prime_filter (ask : List Char → Except HTTPExc (List Char)) :
    (∀ arr : List Int, 1 ≤ arr.length → arr.length ≤ 1000 →
      bfhl ask { prime := some arr } =
        .ok (.ints (arr.filter (fun x => is_prime x))) ∧
      (arr.filter (fun x => is_prime x)).Sublist arr ∧
      (∀ x : Int, x ∈ arr.filter (fun x => is_prime x) ↔
        x ∈ arr ∧ is_prime x = true)) ∧
    bfhl ask { prime := some [2, 3, 4, 5, 9, 11] } =
      .ok (.ints [2, 3, 5, 11]) := by
  constructor
  · intro arr h1 h1000
    refine ⟨?_, List.filter_sublist arr, ?_⟩
    · rw [bfhl_prime, if_neg (by omega)]
    · intro x
      simp [List.mem_filter]
  · rw [bfhl_prime, if_neg (by norm_num)]
    have heq : ∀ x : Int, is_prime x = trial_division_prime x := is_prime_eq_trial_division
    simp only [heq]
    have hf : List.filter (fun x => trial_division_prime x) [2, 3, 4, 5, 9, 11] =
        ([2, 3, 5, 11] : List Int) := by decide
    rw [hf]

/-- C8: `first_word` returns the first maximal run of the text matching
`[A-Za-z]+(?:[A-Za-z-]*)` — the text splits as `pre ++ run ++ suf` where
`pre` has no letter (so no earlier match start), the run starts with a
letter and consists of letters and hyphens, and `suf` does not continue the
run — and returns the empty string exactly when the text has no letter. -/
theorem C8_first_word_first_maximal_run (text : List Char) :
    (first_word text = [] ↔ ∀ c ∈ text, is_letter c = false) ∧
    (first_word text ≠ [] →
      ∃ pre suf, text = pre ++ first_word text ++ suf ∧
        (∀ c ∈ pre, is_letter c = false) ∧
        (∃ c cs, first_word text = c :: cs ∧ is_letter c = true) ∧
        (∀ c ∈ first_word text, is_word_char c = true) ∧
        (suf = [] ∨ ∃ d ds, suf = d :: ds ∧ is_word_char d = false)) :=
  ⟨first_word_empty_iff text, first_word_spec text⟩

/-- C9: every dispatch result passed through the Envelope Builder yields an
envelope whose `is_success` is `true` exactly when the result is a success
(false for every failure), and whose `official_email` equals the configured
process-wide value, in both success and error envelopes. -/
theorem C9_envelope_consistency (email path : String) (r : Except HTTPExc Data) :
    ((build_envelope email path r).is_success = true ↔ ∃ d, r = .ok d) ∧
    (build_envelope email path r).official_email = email := by
  cases r <;> simp [build_envelope]

/-- C10: `lcm_of_list` and `hcf_of_list` return a nonnegative integer on
every list (empty lists and lists with zero or negative elements included):
every element enters the fold through its absolute value. -/
theorem C10_results_nonneg (nums : List Int) :
    0 ≤ lcm_of_list nums ∧ 0 ≤ hcf_of_list nums := by
  rcases nums with _ | ⟨x, xs⟩
  · exact ⟨le_refl 0, le_refl 0⟩
  · exact ⟨lcm_fold_nonneg xs (x.natAbs : Int) (Int.ofNat_nonneg _),
      hcf_fold_nonneg xs (x.natAbs : Int) (Int.ofNat_nonneg _)⟩

end Claims
